import Mathlib

/-!
Verification of the product catalog management logic of
`src/pages/ProductManagementPage.tsx`: the identifier deriver, the
catalog view builder (sorting and grouping), the field-coupling rule for
the unit / kg-factor fields, and the add / edit / delete handlers.

JavaScript numbers are modelled as `ℚ` (no floating-point claim is in
scope), strings as Lean `String`, and `undefined`-able values as `Option`.
-/

namespace RegioFrucht

/-- The `Product` record (`../types/inventory`), as handled by
`ProductManagementPage.tsx`.  `category` and `unit` are kept as strings:
at runtime the data coming back from the store is untyped, and the page
itself only constrains them through the UI. -/
structure Product where
  id : String
  name : String
  category : String
  unit : String
  kgFactor : ℚ
  order : ℚ
  deriving DecidableEq

/-! ### Identifier deriver

`handleAddProduct` derives the id by
`name.toLowerCase().replace(/[äöüß]/g, …digraphs…).replace(/[^a-z0-9]/g, "-")`.
-/

/-- `String.prototype.toLowerCase`, modelled character-wise for the ASCII
range and the German special characters this page deals in (other
characters are returned unchanged). -/
def jsToLower (c : Char) : Char :=
  if c = 'Ä' then 'ä'
  else if c = 'Ö' then 'ö'
  else if c = 'Ü' then 'ü'
  else if c = 'ẞ' then 'ß'
  else c.toLower

/-- One step of `replace(/[äöüß]/g, match => chars[match] || match)`:
each of the four special characters becomes its ASCII digraph, every
other character is left alone. -/
def transliterate (c : Char) : List Char :=
  if c = 'ä' then ['a', 'e']
  else if c = 'ö' then ['o', 'e']
  else if c = 'ü' then ['u', 'e']
  else if c = 'ß' then ['s', 's']
  else [c]

/-- The character class `[a-z0-9]` of the final `replace`. -/
def isAllowed (c : Char) : Bool :=
  ('a' ≤ c && c ≤ 'z') || ('0' ≤ c && c ≤ '9')

/-- One step of `replace(/[^a-z0-9]/g, "-")`. -/
def hyphenate (c : Char) : Char :=
  if isAllowed c then c else '-'

/-- The id derivation of `handleAddProduct`
(`ProductManagementPage.tsx` lines 73–84): lower-case, transliterate
`ä ö ü ß`, then replace every character outside `[a-z0-9]` by one
hyphen per character. -/
def deriveId (name : String) : String :=
  String.mk ((((name.data.map jsToLower).flatMap transliterate).map hyphenate))

/-- The contribution of a single input character to `deriveId`. -/
def deriveIdChar (c : Char) : List Char :=
  (transliterate (jsToLower c)).map hyphenate

theorem deriveId_eq_flatMap (s : String) :
    deriveId s = String.mk (s.data.flatMap deriveIdChar) := by
  simp only [deriveId, List.map_flatMap, List.flatMap_map, Function.comp]
  rfl

theorem deriveId_append (s t : String) :
    deriveId (s ++ t) = deriveId s ++ deriveId t := by
  simp only [deriveId_eq_flatMap]
  have h : (s ++ t).data = s.data ++ t.data := by
    cases s; cases t; rfl
  have hmk : ∀ u v : List Char, String.mk (u ++ v) = String.mk u ++ String.mk v := by
    intro u v
    rfl
  rw [h, List.flatMap_append, hmk]

/-! ### Catalog view builder: sorting

`sortedProducts` is `[...products].sort(cmp)` with

```
cmp(a, b) = a.category !== b.category
            ? categoryOrder[a.category] - categoryOrder[b.category]
            : a.name.localeCompare(b.name, "de")
```

`categoryOrder` is the literal `{ fruits: 1, vegetables: 2, salads: 3 }`,
so the lookup yields `undefined` off those three keys; the subtraction is
then `NaN`, which the `SortCompare` operation of ECMAScript maps to `+0`.  `sort` with a
comparator is a stable sort, modelled here by `List.insertionSort`.
-/

/-- The literal object `{ fruits: 1, vegetables: 2, salads: 3 }`;
indexing off the three keys gives `undefined`, i.e. `none`. -/
def categoryOrder (c : String) : Option Int :=
  if c = "fruits" then some 1
  else if c = "vegetables" then some 2
  else if c = "salads" then some 3
  else none

/-- Primary collation key under the German locale: the four special
characters sort with their base letters (`ä` with `a`, `ö` with `o`,
`ü` with `u`, `ß` as `ss`), case-insensitively. -/
def deKeyChar (c : Char) : List Char :=
  if jsToLower c = 'ä' then ['a']
  else if jsToLower c = 'ö' then ['o']
  else if jsToLower c = 'ü' then ['u']
  else if jsToLower c = 'ß' then ['s', 's']
  else [jsToLower c]

/-- Primary German collation key of a string. -/
def deKey (s : String) : List Char :=
  s.data.flatMap deKeyChar

/-- Lexicographic strict order on character sequences. -/
def lexLt : List Char → List Char → Bool
  | _, [] => false
  | [], _ :: _ => true
  | a :: as, b :: bs => a < b || (a = b && lexLt as bs)

/-- `String.prototype.localeCompare` with locale `"de"`, modelled from the
German collation the page relies on: strings are compared by their primary
collation key (umlauts sorted with their base letters), ties broken by the
raw code-point order. -/
def localeCompareDe (a b : String) : Int :=
  if lexLt (deKey a) (deKey b) then -1
  else if lexLt (deKey b) (deKey a) then 1
  else if lexLt a.data b.data then -1
  else if lexLt b.data a.data then 1
  else 0

/-- The comparator passed to `sort` (`ProductManagementPage.tsx`
lines 19–27).  When a rank lookup yields `undefined` the JS subtraction
is `NaN`, which `SortCompare` turns into `+0`; the `none` branches
return `0` accordingly. -/
def productCmp (a b : Product) : Int :=
  if a.category ≠ b.category then
    match categoryOrder a.category, categoryOrder b.category with
    | some x, some y => x - y
    | _, _ => 0
  else localeCompareDe a.name b.name

/-- `a` may be placed before `b` by the stable sort. -/
def ProductLe (a b : Product) : Prop := productCmp a b ≤ 0

instance : DecidableRel ProductLe := fun a b =>
  inferInstanceAs (Decidable (productCmp a b ≤ 0))

/-- `sortedProducts`: the stable sort of the collection by `productCmp`. -/
def sortedProducts (products : List Product) : List Product :=
  List.insertionSort ProductLe products

/-! ### Catalog view builder: grouping -/

/-- One step of the `reduce` building `groupedProducts` (lines 119–125):
the accumulator models a JS object as an association list in key insertion
order; `acc[product.category].push(product)` appends to an existing
group, a missing key is created with a one-element group. -/
def groupStep (acc : List (String × List Product)) (p : Product) :
    List (String × List Product) :=
  if acc.any (fun kv => kv.1 = p.category) then
    acc.map (fun kv => if kv.1 = p.category then (kv.1, kv.2 ++ [p]) else kv)
  else
    acc ++ [(p.category, [p])]

/-- `groupedProducts`: the sorted collection reduced into per-category
groups. -/
def groupedProducts (products : List Product) : List (String × List Product) :=
  (sortedProducts products).foldl groupStep []

/-- `groupedProducts[category]`, with the `?.` fallback of the rendering:
a missing key renders as no products. -/
def groupLookup (grouped : List (String × List Product)) (c : String) :
    List Product :=
  match grouped.find? (fun kv => kv.1 = c) with
  | some kv => kv.2
  | none => []

/-- `Object.keys(categoryNames)`: the fixed category list the rendering
iterates over (lines 202–207). -/
def categoryKeys : List String := ["fruits", "vegetables", "salads"]

/-- The rendered grouped view: one entry per fixed category, in display
order, holding the group of that category in `groupedProducts` (empty when the
key is absent). -/
def buildView (products : List Product) : List (String × List Product) :=
  categoryKeys.map (fun c => (c, groupLookup (groupedProducts products) c))

/-! ### Drafts and handlers -/

/-- The `newProduct` draft: `useState<Partial<Product>>`, every field
possibly `undefined`.  (`id` and `order` are never set on the draft.) -/
structure NewProductDraft where
  name : Option String
  category : Option String
  unit : Option String
  kgFactor : Option ℚ
  deriving DecidableEq

/-- `handleUnitChange` (lines 29–48) on the new-product draft:
`newKgFactor = newUnit === "kg" ? 1 : undefined`, then
`kgFactor: newKgFactor ?? prev.kgFactor`. -/
def handleUnitChangeNew (prev : NewProductDraft) (newUnit : String) :
    NewProductDraft :=
  let newKgFactor : Option ℚ := if newUnit = "kg" then some 1 else none
  { prev with unit := some newUnit, kgFactor := newKgFactor.or prev.kgFactor }

/-- `handleUnitChange` on the in-edit draft (a full `Product`, whose
`kgFactor` is always defined). -/
def handleUnitChangeEdit (prev : Product) (newUnit : String) : Product :=
  let newKgFactor : Option ℚ := if newUnit = "kg" then some 1 else none
  { prev with unit := newUnit, kgFactor := newKgFactor.getD prev.kgFactor }

/-- JS truthiness of a possibly-`undefined` string: `undefined` and the
empty string are falsy. -/
def truthyStr : Option String → Bool
  | none => false
  | some s => s ≠ ""

/-- The guard of `handleAddProduct` (line 71):
`newProduct.name && newProduct.category && newProduct.unit &&
newProduct.kgFactor !== undefined` — truthiness checks on the three
string fields, an explicit not-`undefined` check on `kgFactor`. -/
def validNewProduct (d : NewProductDraft) : Bool :=
  truthyStr d.name && truthyStr d.category && truthyStr d.unit
    && d.kgFactor.isSome

/-- `handleAddProduct` (lines 70–99): when the guard passes, the draft is
completed into a `Product` (id derived from the name, `order` set to the
current collection size plus one) and the collection with it appended is
handed to `saveProducts`; otherwise no persistence call is made.  The
result is the persisted collection, `none` when nothing is saved.  (The
`getD` defaults are never reached: the guard ensures every field is
defined.) -/
def handleAddProduct (products : List Product) (d : NewProductDraft) :
    Option (List Product) :=
  if validNewProduct d then
    let newProductComplete : Product :=
      { id := deriveId (d.name.getD "")
        name := d.name.getD ""
        category := d.category.getD ""
        unit := d.unit.getD ""
        kgFactor := d.kgFactor.getD 0
        order := Rat.ofInt (Int.ofNat (products.length + 1)) }
    some (products ++ [newProductComplete])
  else none

/-- `handleDeleteProduct` (lines 101–107): after confirmation, the
collection with every record of the given id filtered out is persisted. -/
def handleDeleteProduct (products : List Product) (productId : String) :
    List Product :=
  products.filter (fun p => p.id ≠ productId)

/-- The page state the edit handlers touch: the collection from the hook and the
held in-edit draft. -/
structure PageState where
  products : List Product
  editingProduct : Option Product
  deriving DecidableEq

/-- The collection update of `handleSaveEdit` (lines 58–60):
`products.map(p => p.id === editingProduct.id ? editingProduct : p)`. -/
def replaceById (products : List Product) (editing : Product) : List Product :=
  products.map (fun p => if p.id = editing.id then editing else p)

/-- `handleSaveEdit` (lines 55–64): when a draft is held, every record
whose id equals the id of the draft is replaced by the draft, the
resulting full collection is persisted, and the draft is cleared; with no
draft held nothing happens.  The second component is the collection
handed to `saveProducts`, `none` when no persistence call is made. -/
def handleSaveEdit (s : PageState) : PageState × Option (List Product) :=
  match s.editingProduct with
  | some editing =>
      let updatedProducts := replaceById s.products editing
      ({ s with editingProduct := none }, some updatedProducts)
  | none => (s, none)

/-- `handleCancelEdit` (lines 66–68): the draft is discarded, no
persistence call. -/
def handleCancelEdit (s : PageState) : PageState × Option (List Product) :=
  ({ s with editingProduct := none }, none)

/-! ### Claim theorems -/

/-- Claim C3: the identifier deriver lower-cases its input, transliterates
`ä` to `ae`, `ö` to `oe`, `ü` to `ue`, `ß` to `ss`, and replaces every
remaining character outside `[a-z0-9]` with one hyphen per character (not
collapsed): `deriveId` acts independently on each input character
(conjuncts 1 and 2), the contribution of one character is its transliterated
digraph, itself when allowed, and exactly one hyphen otherwise (conjunct 3);
`deriveId "Müsli" = "muesli"`, `deriveId "Äpfel & Co." = "aepfel---co-"`,
and the function is total, the empty string yielding the empty id. -/
theorem deriveId_spec :
    (∀ s : String, deriveId s = String.mk (s.data.flatMap deriveIdChar))
    ∧ (∀ s t : String, deriveId (s ++ t) = deriveId s ++ deriveId t)
    ∧ (∀ c : Char, deriveIdChar c =
        if jsToLower c = 'ä' then ['a', 'e']
        else if jsToLower c = 'ö' then ['o', 'e']
        else if jsToLower c = 'ü' then ['u', 'e']
        else if jsToLower c = 'ß' then ['s', 's']
        else if isAllowed (jsToLower c) then [jsToLower c]
        else ['-'])
    ∧ deriveId "Müsli" = "muesli"
    ∧ deriveId "Äpfel & Co." = "aepfel---co-"
    ∧ deriveId "" = "" := by
  refine ⟨deriveId_eq_flatMap, deriveId_append, ?_, by decide, by decide, rfl⟩
  intro c
  unfold deriveIdChar transliterate hyphenate
  split_ifs with h1 h2 h3 h4 h5 <;> simp_all <;> decide

/-- Claim C5: applying the unit-change operation with new unit `kg` forces
the kg-factor of the draft to 1, and applying it with any other unit
leaves the previously held kg-factor unchanged — on the new-product draft
and on the in-edit draft alike. -/
theorem handleUnitChange_kgFactor :
    (∀ (prev : NewProductDraft) (u : String),
        (u = "kg" → (handleUnitChangeNew prev u).kgFactor = some 1)
        ∧ (u ≠ "kg" → (handleUnitChangeNew prev u).kgFactor = prev.kgFactor))
    ∧ (∀ (prev : Product) (u : String),
        (u = "kg" → (handleUnitChangeEdit prev u).kgFactor = 1)
        ∧ (u ≠ "kg" → (handleUnitChangeEdit prev u).kgFactor = prev.kgFactor)) := by
  constructor <;> intro prev u <;> constructor <;> intro h <;>
    simp [handleUnitChangeNew, handleUnitChangeEdit, h, Option.or]

theorem handleUnitChange_kgFactor_witness :
    (handleUnitChangeNew ⟨some "Apfel", some "fruits", some "Stück", some 5⟩
        "kg").kgFactor = some 1
    ∧ (handleUnitChangeNew ⟨some "Apfel", some "fruits", some "kg", some 5⟩
        "Bund").kgFactor = some 5
    ∧ (handleUnitChangeEdit ⟨"apfel", "Apfel", "fruits", "Stück", 5, 1⟩
        "kg").kgFactor = 1
    ∧ (handleUnitChangeEdit ⟨"apfel", "Apfel", "fruits", "kg", 7, 1⟩
        "Bund").kgFactor = 7 :=
  ⟨(handleUnitChange_kgFactor.1 _ "kg").1 rfl,
   (handleUnitChange_kgFactor.1 _ "Bund").2 (by decide),
   (handleUnitChange_kgFactor.2 _ "kg").1 rfl,
   (handleUnitChange_kgFactor.2 _ "Bund").2 (by decide)⟩

/-- Claim C6, counterexample: a draft whose `name`, `category` and `unit`
are all present (defined) and whose `kgFactor` is 0 is nevertheless not
submitted when the present name is the empty string — the guard checks the
string fields for truthiness, not mere definedness, and the empty string
is falsy. -/
theorem addProduct_empty_name_not_submitted :
    (NewProductDraft.mk (some "") (some "vegetables") (some "Stück")
        (some 0)).name.isSome
    ∧ (NewProductDraft.mk (some "") (some "vegetables") (some "Stück")
        (some 0)).category.isSome
    ∧ (NewProductDraft.mk (some "") (some "vegetables") (some "Stück")
        (some 0)).unit.isSome
    ∧ (NewProductDraft.mk (some "") (some "vegetables") (some "Stück")
        (some 0)).kgFactor = some 0
    ∧ handleAddProduct []
        (NewProductDraft.mk (some "") (some "vegetables") (some "Stück")
          (some 0)) = none := by
  refine ⟨rfl, rfl, rfl, rfl, ?_⟩
  decide

/-- Claim C6, amended: a new-product draft whose `name`, `category` and
`unit` are present and non-empty and whose `kgFactor` equals 0 passes the
creation validation gate and is submitted (the `kgFactor` presence check
is an explicit not-undefined check, so the falsy value 0 is not rejected);
conversely the add operation submits nothing when `name`, `category` or
`unit` is missing or `kgFactor` is undefined. -/
theorem addProduct_gate (products : List Product) (d : NewProductDraft) :
    (∀ name cat u : String,
        d.name = some name → name ≠ "" →
        d.category = some cat → cat ≠ "" →
        d.unit = some u → u ≠ "" →
        d.kgFactor = some 0 →
        (handleAddProduct products d).isSome)
    ∧ (d.name = none ∨ d.category = none ∨ d.unit = none ∨ d.kgFactor = none →
        handleAddProduct products d = none) := by
  constructor
  · intro name cat u hn hne hc hce hu hue hk
    simp [handleAddProduct, validNewProduct, truthyStr, hn, hc, hu, hk, hne, hce, hue]
  · intro h
    rcases h with h | h | h | h <;>
      simp [handleAddProduct, validNewProduct, truthyStr, h]

theorem addProduct_gate_witness :
    (handleAddProduct []
        (NewProductDraft.mk (some "Tomate") (some "vegetables") (some "Stück")
          (some 0))).isSome
    ∧ handleAddProduct []
        (NewProductDraft.mk none (some "vegetables") (some "Stück") (some 0))
        = none :=
  ⟨(addProduct_gate [] _).1 "Tomate" "vegetables" "Stück" rfl (by decide) rfl
      (by decide) rfl (by decide) rfl,
   (addProduct_gate [] _).2 (Or.inl rfl)⟩

/-- Claim C7: adding a new product to a collection of size `n` persists
the original collection with exactly one record appended, whose id is
derived from the entered name and whose `order` equals `n + 1`, every
pre-existing record untouched. -/
theorem addProduct_appends (products : List Product)
    (name cat u : String) (kg : ℚ)
    (hn : name ≠ "") (hc : cat ≠ "") (hu : u ≠ "") :
    handleAddProduct products (NewProductDraft.mk (some name) (some cat) (some u) (some kg))
      = some (products ++
          [{ id := deriveId name, name := name, category := cat, unit := u,
             kgFactor := kg, order := Rat.ofInt (Int.ofNat (products.length + 1)) }]) := by
  simp [handleAddProduct, validNewProduct, truthyStr, hn, hc, hu]

/-- The end-to-end example of claim C7: starting from the single `apfel`
record, adding the `Karotte` draft derives the id `karotte`, assigns
`order` 2, and leaves the `apfel` record untouched. -/
theorem addProduct_appends_witness :
    handleAddProduct
        [⟨"apfel", "Apfel", "fruits", "kg", 1, 1⟩]
        (NewProductDraft.mk (some "Karotte") (some "vegetables") (some "Stück") (some 5))
      = some [⟨"apfel", "Apfel", "fruits", "kg", 1, 1⟩,
              ⟨"karotte", "Karotte", "vegetables", "Stück", 5, 2⟩] := by
  rw [addProduct_appends [⟨"apfel", "Apfel", "fruits", "kg", 1, 1⟩]
      "Karotte" "vegetables" "Stück" 5 (by decide) (by decide) (by decide)]
  decide

/-- Filtering out the (by `Nodup` unique) record carrying a present id
shortens the collection by exactly one. -/
theorem length_filter_ne_of_nodup (productId : String) :
    ∀ l : List Product, (l.map Product.id).Nodup → productId ∈ l.map Product.id →
      (l.filter (fun p => p.id ≠ productId)).length + 1 = l.length := by
  intro l
  induction l with
  | nil =>
    intro _ h
    simp at h
  | cons p l ih =>
    intro hnd hmem
    simp only [List.map_cons, List.nodup_cons] at hnd
    by_cases hp : p.id = productId
    · have hnotin : ∀ q ∈ l, q.id ≠ productId := by
        intro q hq he
        exact hnd.1 (hp ▸ he ▸ List.mem_map_of_mem Product.id hq)
      have hself : l.filter (fun p => p.id ≠ productId) = l := by
        rw [List.filter_eq_self]
        intro a ha
        simpa using hnotin a ha
      rw [List.filter_cons, if_neg (by simp [hp]), hself]
      simp
    · have hmem2 : productId ∈ l.map Product.id := by
        simp only [List.map_cons, List.mem_cons] at hmem
        rcases hmem with h | h
        · exact absurd h.symm hp
        · exact h
      have hlen := ih hnd.2 hmem2
      rw [List.filter_cons, if_pos (by simp [hp])]
      simp only [List.length_cons]
      omega

/-- Claim C2: for a collection with pairwise distinct ids (the documented
collection invariant) and the id of one of its products, the confirmed
delete persists a collection from which exactly one record — the one with
that id — has been removed: the result is a sublist of the original (so
every surviving record, its `order` value included, is bitwise the record
it was, in the original relative order), its length has dropped by one,
and it holds exactly the records whose id differs from the deleted one. -/
theorem deleteProduct_removes_exactly_one
    (products : List Product) (productId : String)
    (hnodup : (products.map Product.id).Nodup)
    (hmem : productId ∈ products.map Product.id) :
    List.Sublist (handleDeleteProduct products productId) products
    ∧ (handleDeleteProduct products productId).length + 1 = products.length
    ∧ (∀ p ∈ products, p.id ≠ productId →
        p ∈ handleDeleteProduct products productId)
    ∧ (∀ p ∈ handleDeleteProduct products productId,
        p ∈ products ∧ p.id ≠ productId) := by
  refine ⟨List.filter_sublist products, ?_, ?_, ?_⟩
  · exact length_filter_ne_of_nodup productId products hnodup hmem
  · intro p hp hne
    simp [handleDeleteProduct, List.mem_filter, hp, hne]
  · intro p hp
    simp only [handleDeleteProduct, List.mem_filter] at hp
    refine ⟨hp.1, by simpa using hp.2⟩

theorem deleteProduct_removes_exactly_one_witness :
    List.Sublist
      (handleDeleteProduct
        [⟨"apfel", "Apfel", "fruits", "kg", 1, 1⟩,
         ⟨"karotte", "Karotte", "vegetables", "Stück", 5, 2⟩] "apfel")
      [⟨"apfel", "Apfel", "fruits", "kg", 1, 1⟩,
       ⟨"karotte", "Karotte", "vegetables", "Stück", 5, 2⟩]
    ∧ (handleDeleteProduct
        [⟨"apfel", "Apfel", "fruits", "kg", 1, 1⟩,
         ⟨"karotte", "Karotte", "vegetables", "Stück", 5, 2⟩] "apfel").length + 1
      = 2 :=
  ⟨(deleteProduct_removes_exactly_one _ "apfel" (by decide) (by decide)).1,
   (deleteProduct_removes_exactly_one _ "apfel" (by decide) (by decide)).2.1⟩

/-- Claim C9: saving an edit persists the collection in which every record
matched by the id of the draft is replaced by the draft and every record
with a different id is unchanged in place (positionally: entry `i` of the
persisted collection is the draft where entry `i` of the original matches,
and the original record otherwise), the per-position ids — hence the ids of
the collection — are unchanged by the edit, and the draft is cleared;
cancelling the edit discards the draft and issues no persistence call. -/
theorem saveEdit_replaces_matched (s : PageState) (editing : Product)
    (h : s.editingProduct = some editing) :
    (handleSaveEdit s).2 = some (replaceById s.products editing)
    ∧ (handleSaveEdit s).1.editingProduct = none
    ∧ (replaceById s.products editing).length = s.products.length
    ∧ (∀ i : ℕ, (replaceById s.products editing)[i]? =
        (s.products[i]?).map (fun p => if p.id = editing.id then editing else p))
    ∧ (replaceById s.products editing).map Product.id = s.products.map Product.id
    ∧ (∀ t : PageState, handleCancelEdit t = ({ t with editingProduct := none }, none)) := by
  refine ⟨by simp [handleSaveEdit, h], by simp [handleSaveEdit, h], ?_, ?_, ?_, fun t => rfl⟩
  · simp [replaceById]
  · intro i
    simp [replaceById, List.getElem?_map]
  · unfold replaceById
    rw [List.map_map]
    apply List.map_congr_left
    intro p _
    by_cases hid : p.id = editing.id
    · simp [Function.comp, hid]
    · simp [Function.comp, hid]

theorem saveEdit_replaces_matched_witness :
    (handleSaveEdit
        ⟨[⟨"apfel", "Apfel", "fruits", "kg", 1, 1⟩,
          ⟨"karotte", "Karotte", "vegetables", "Stück", 5, 2⟩],
         some ⟨"apfel", "Apfelmus", "fruits", "Bund", 3, 1⟩⟩).2
      = some (replaceById
          [⟨"apfel", "Apfel", "fruits", "kg", 1, 1⟩,
           ⟨"karotte", "Karotte", "vegetables", "Stück", 5, 2⟩]
          ⟨"apfel", "Apfelmus", "fruits", "Bund", 3, 1⟩)
    ∧ (handleSaveEdit
        ⟨[⟨"apfel", "Apfel", "fruits", "kg", 1, 1⟩,
          ⟨"karotte", "Karotte", "vegetables", "Stück", 5, 2⟩],
         some ⟨"apfel", "Apfelmus", "fruits", "Bund", 3, 1⟩⟩).1.editingProduct
      = none :=
  ⟨(saveEdit_replaces_matched _ _ rfl).1, (saveEdit_replaces_matched _ _ rfl).2.1⟩

/-- Claim C10: saving an edit whose draft id matches no record in the
collection persists a collection element-wise equal to the original — the
replacement map is the identity — while still clearing the draft. -/
theorem saveEdit_unmatched_is_identity (s : PageState) (editing : Product)
    (h : s.editingProduct = some editing)
    (hid : editing.id ∉ s.products.map Product.id) :
    (handleSaveEdit s).2 = some s.products
    ∧ (handleSaveEdit s).1.editingProduct = none := by
  have hrep : replaceById s.products editing = s.products := by
    unfold replaceById
    conv_rhs => rw [← List.map_id s.products]
    apply List.map_congr_left
    intro p hp
    have : p.id ≠ editing.id := by
      intro he
      exact hid (he ▸ List.mem_map_of_mem Product.id hp)
    simp [this]
  refine ⟨?_, by simp [handleSaveEdit, h]⟩
  simp [handleSaveEdit, h, hrep]

theorem saveEdit_unmatched_is_identity_witness :
    (handleSaveEdit
        ⟨[⟨"apfel", "Apfel", "fruits", "kg", 1, 1⟩],
         some ⟨"birne", "Birne", "fruits", "kg", 1, 9⟩⟩).2
      = some [⟨"apfel", "Apfel", "fruits", "kg", 1, 1⟩]
    ∧ (handleSaveEdit
        ⟨[⟨"apfel", "Apfel", "fruits", "kg", 1, 1⟩],
         some ⟨"birne", "Birne", "fruits", "kg", 1, 9⟩⟩).1.editingProduct
      = none :=
  saveEdit_unmatched_is_identity _ _ rfl (by decide)

/-- Grouping invariant: every product filed under a key of the
accumulator carries that key as its category, and folding `groupStep`
preserves this. -/
theorem foldl_groupStep_category (l : List Product) :
    ∀ (acc : List (String × List Product)),
      (∀ kv ∈ acc, ∀ q ∈ kv.2, q.category = kv.1) →
      ∀ kv ∈ l.foldl groupStep acc, ∀ q ∈ kv.2, q.category = kv.1 := by
  induction l with
  | nil =>
    intro acc hacc kv hkv
    exact hacc kv hkv
  | cons p l ih =>
    intro acc hacc
    rw [List.foldl_cons]
    apply ih
    intro kv hkv q hq
    unfold groupStep at hkv
    split at hkv
    · obtain ⟨kv0, hkv0, hfeq⟩ := List.mem_map.mp hkv
      by_cases hc : kv0.1 = p.category
      · rw [if_pos hc] at hfeq
        subst hfeq
        rcases List.mem_append.mp hq with hq | hq
        · exact hacc kv0 hkv0 q hq
        · have : q = p := by simpa using hq
          subst this
          exact hc.symm
      · rw [if_neg hc] at hfeq
        subst hfeq
        exact hacc kv0 hkv0 q hq
    · rcases List.mem_append.mp hkv with hkv | hkv
      · exact hacc kv hkv q hq
      · have : kv = (p.category, [p]) := by simpa using hkv
        subst this
        have : q = p := by simpa using hq
        subst this
        rfl

/-- Key origin: every key of the grouping comes from the accumulator or
from the category of some grouped product. -/
theorem mem_foldl_groupStep_keys (l : List Product) :
    ∀ (acc : List (String × List Product)) (kv : String × List Product),
      kv ∈ l.foldl groupStep acc →
      kv.1 ∈ acc.map Prod.fst ∨ ∃ p ∈ l, p.category = kv.1 := by
  induction l with
  | nil =>
    intro acc kv hkv
    exact Or.inl (List.mem_map_of_mem Prod.fst hkv)
  | cons p l ih =>
    intro acc kv hkv
    rw [List.foldl_cons] at hkv
    rcases ih (groupStep acc p) kv hkv with h | ⟨q, hq, hqc⟩
    · unfold groupStep at h
      split at h
      · have hkeys : (acc.map (fun kv =>
            if kv.1 = p.category then (kv.1, kv.2 ++ [p]) else kv)).map Prod.fst
            = acc.map Prod.fst := by
          rw [List.map_map]
          apply List.map_congr_left
          intro kv0 _
          by_cases hc : kv0.1 = p.category
          · simp [Function.comp, hc]
          · simp [Function.comp, hc]
        rw [hkeys] at h
        exact Or.inl h
      · rw [List.map_append] at h
        rcases List.mem_append.mp h with h | h
        · exact Or.inl h
        · have : kv.1 = p.category := by simpa using h
          exact Or.inr ⟨p, List.mem_cons_self p l, this.symm⟩
    · exact Or.inr ⟨q, List.mem_cons_of_mem p hq, hqc⟩

/-- Claim C1: for every product collection, the grouped view the page
renders contains exactly the three category keys `fruits`, `vegetables`,
`salads`, in that fixed order, and a category key is present with an
empty group even when no product of that category exists (the rendering
iterates over the fixed category list, and the lookup into the reduced
grouping falls back to the empty group for a key the reduce never
created). -/
theorem buildView_keys_exact (products : List Product) :
    (buildView products).map Prod.fst = categoryKeys
    ∧ (∀ c ∈ categoryKeys, (∀ p ∈ products, p.category ≠ c) →
        (c, ([] : List Product)) ∈ buildView products) := by
  constructor
  · rfl
  · intro c hc hnone
    have hfind : (groupedProducts products).find? (fun kv => kv.1 = c) = none := by
      rw [List.find?_eq_none]
      intro kv hkv
      simp only [decide_eq_true_eq]
      intro hkc
      rcases mem_foldl_groupStep_keys (sortedProducts products) [] kv hkv with h | ⟨q, hq, hqc⟩
      · simp at h
      · have hq2 : q ∈ products :=
          (List.perm_insertionSort ProductLe products).mem_iff.mp hq
        exact hnone q hq2 (hqc.trans hkc)
    have hempty : groupLookup (groupedProducts products) c = [] := by
      simp [groupLookup, hfind]
    have hmem : (c, groupLookup (groupedProducts products) c) ∈ buildView products :=
      List.mem_map_of_mem _ hc
    rwa [hempty] at hmem

theorem buildView_keys_exact_witness :
    ((buildView [⟨"karotte", "Karotte", "vegetables", "Stück", 5, 1⟩]).map Prod.fst
      = categoryKeys)
    ∧ ("fruits", ([] : List Product))
        ∈ buildView [⟨"karotte", "Karotte", "vegetables", "Stück", 5, 1⟩] :=
  ⟨(buildView_keys_exact _).1,
   (buildView_keys_exact _).2 "fruits" (by decide) (by decide)⟩

/-- Claim C8: a product whose category is none of `fruits`, `vegetables`,
`salads` appears in none of the three rendered category groups — the
lookup for each fixed key only ever yields products of exactly that
category, and the rendering iterates over the fixed three-key list only —
so the product is silently absent from the displayed view. -/
theorem unknown_category_not_rendered (products : List Product) (p : Product)
    (_hp : p ∈ products) (hcat : p.category ∉ categoryKeys) :
    (∀ c ∈ categoryKeys, p ∉ groupLookup (groupedProducts products) c)
    ∧ (∀ e ∈ buildView products, p ∉ e.2) := by
  have hmain : ∀ c ∈ categoryKeys, p ∉ groupLookup (groupedProducts products) c := by
    intro c hc hmem
    unfold groupLookup at hmem
    cases hfind : (groupedProducts products).find? (fun kv => kv.1 = c) with
    | none =>
        rw [hfind] at hmem
        simp at hmem
    | some kv =>
        rw [hfind] at hmem
        have hkv_mem : kv ∈ groupedProducts products := List.mem_of_find?_eq_some hfind
        have hkc : kv.1 = c := by
          have := List.find?_some hfind
          simpa using this
        have hcatkv : p.category = kv.1 :=
          foldl_groupStep_category (sortedProducts products) [] (by simp) kv hkv_mem p hmem
        rw [hcatkv, hkc] at hcat
        exact hcat hc
  refine ⟨hmain, ?_⟩
  intro e he hmem
  obtain ⟨c, hc, rfl⟩ := List.mem_map.mp he
  exact hmain c hc hmem

theorem unknown_category_not_rendered_witness :
    (⟨"x", "X", "other", "kg", 1, 1⟩ : Product)
      ∉ groupLookup (groupedProducts [⟨"x", "X", "other", "kg", 1, 1⟩]) "fruits"
    ∧ (⟨"x", "X", "other", "kg", 1, 1⟩ : Product)
      ∉ groupLookup (groupedProducts [⟨"x", "X", "other", "kg", 1, 1⟩]) "vegetables"
    ∧ (⟨"x", "X", "other", "kg", 1, 1⟩ : Product)
      ∉ groupLookup (groupedProducts [⟨"x", "X", "other", "kg", 1, 1⟩]) "salads" :=
  ⟨(unknown_category_not_rendered _ _ (by decide) (by decide)).1 "fruits" (by decide),
   (unknown_category_not_rendered _ _ (by decide) (by decide)).1 "vegetables" (by decide),
   (unknown_category_not_rendered _ _ (by decide) (by decide)).1 "salads" (by decide)⟩

/-! ### Order facts about the comparator -/

theorem lexLt_irrefl : ∀ l : List Char, lexLt l l = false := by
  intro l
  induction l with
  | nil => rfl
  | cons a l ih => simp [lexLt, ih]

theorem lexLt_trans : ∀ (x y z : List Char),
    lexLt x y = true → lexLt y z = true → lexLt x z = true := by
  intro x
  induction x with
  | nil =>
    intro y z hxy hyz
    cases z with
    | nil =>
        cases y with
        | nil => simp [lexLt] at hxy
        | cons b bs => simp [lexLt] at hyz
    | cons c cs => simp [lexLt]
  | cons a as ih =>
    intro y z hxy hyz
    cases y with
    | nil => simp [lexLt] at hxy
    | cons b bs =>
      cases z with
      | nil => simp [lexLt] at hyz
      | cons c cs =>
        simp only [lexLt, Bool.or_eq_true, Bool.and_eq_true,
          decide_eq_true_eq] at hxy hyz ⊢
        rcases hxy with h1 | ⟨h1, h1r⟩ <;> rcases hyz with h2 | ⟨h2, h2r⟩
        · exact Or.inl (lt_trans h1 h2)
        · exact Or.inl (h2 ▸ h1)
        · exact Or.inl (h1 ▸ h2)
        · exact Or.inr ⟨h1.trans h2, ih bs cs h1r h2r⟩

theorem lexLt_eq_of_both_false : ∀ (x y : List Char),
    lexLt x y = false → lexLt y x = false → x = y := by
  intro x
  induction x with
  | nil =>
    intro y hxy _
    cases y with
    | nil => rfl
    | cons b bs => simp [lexLt] at hxy
  | cons a as ih =>
    intro y hxy hyx
    cases y with
    | nil => simp [lexLt] at hyx
    | cons b bs =>
      simp only [lexLt, Bool.or_eq_false_iff, Bool.and_eq_false_iff,
        decide_eq_false_iff_not] at hxy hyx
      have hab : a = b := le_antisymm (not_lt.mp hyx.1) (not_lt.mp hxy.1)
      subst hab
      have h1 : lexLt as bs = false := by
        rcases hxy.2 with h | h
        · simp at h
        · simpa using h
      have h2 : lexLt bs as = false := by
        rcases hyx.2 with h | h
        · simp at h
        · simpa using h
      rw [ih bs h1 h2]

theorem string_eq_of_data_eq {a b : String} (h : a.data = b.data) : a = b := by
  cases a
  cases b
  exact congrArg String.mk h

theorem localeCompareDe_le_iff (a b : String) :
    localeCompareDe a b ≤ 0 ↔
      (lexLt (deKey a) (deKey b) = true
       ∨ (deKey a = deKey b ∧ (lexLt a.data b.data = true ∨ a = b))) := by
  unfold localeCompareDe
  by_cases h1 : lexLt (deKey a) (deKey b) = true
  · simp [h1]
  · by_cases h2 : lexLt (deKey b) (deKey a) = true
    · have hne : ¬ deKey a = deKey b := by
        intro he
        rw [he, lexLt_irrefl] at h2
        exact absurd h2 (by simp)
      simp [h1, h2, hne]
    · have hkeq : deKey a = deKey b :=
        lexLt_eq_of_both_false _ _ (by simpa using h1) (by simpa using h2)
      by_cases h3 : lexLt a.data b.data = true
      · simp [h1, h2, h3, hkeq, lexLt_irrefl]
      · by_cases h4 : lexLt b.data a.data = true
        · have hne : ¬ a = b := by
            intro he
            rw [he, lexLt_irrefl] at h4
            exact absurd h4 (by simp)
          simp [h1, h2, h3, h4, hne]
        · have heq : a = b := string_eq_of_data_eq
            (lexLt_eq_of_both_false _ _ (by simpa using h3) (by simpa using h4))
          simp [h1, h2, h3, h4, heq, lexLt_irrefl]

theorem localeCompareDe_le_total (a b : String) :
    localeCompareDe a b ≤ 0 ∨ localeCompareDe b a ≤ 0 := by
  unfold localeCompareDe
  by_cases h1 : lexLt (deKey a) (deKey b) = true
  · left
    simp [h1]
  · by_cases h2 : lexLt (deKey b) (deKey a) = true
    · right
      simp [h2]
    · by_cases h3 : lexLt a.data b.data = true
      · left
        simp [h1, h2, h3]
      · by_cases h4 : lexLt b.data a.data = true
        · right
          simp [h1, h2, h4]
        · left
          simp [h1, h2, h3, h4]

theorem localeCompareDe_le_trans {a b c : String}
    (hab : localeCompareDe a b ≤ 0) (hbc : localeCompareDe b c ≤ 0) :
    localeCompareDe a c ≤ 0 := by
  rw [localeCompareDe_le_iff] at hab hbc ⊢
  rcases hab with h1 | ⟨e1, d1⟩ <;> rcases hbc with h2 | ⟨e2, d2⟩
  · exact Or.inl (lexLt_trans _ _ _ h1 h2)
  · exact Or.inl (e2 ▸ h1)
  · exact Or.inl (e1 ▸ h2)
  · refine Or.inr ⟨e1.trans e2, ?_⟩
    rcases d1 with d1 | rfl
    · rcases d2 with d2 | rfl
      · exact Or.inl (lexLt_trans _ _ _ d1 d2)
      · exact Or.inl d1
    · exact d2

theorem categoryOrder_cases {c : String} (h : c ∈ categoryKeys) :
    (c = "fruits" ∧ categoryOrder c = some 1)
    ∨ (c = "vegetables" ∧ categoryOrder c = some 2)
    ∨ (c = "salads" ∧ categoryOrder c = some 3) := by
  simp only [categoryKeys, List.mem_cons, List.not_mem_nil, or_false] at h
  rcases h with h | h | h <;> subst h <;> simp [categoryOrder]

/-- For products of recognized categories, the comparator realizes exactly
the composite key of the spec: primary category rank, secondary German
collation on the name. -/
theorem productLe_iff_of_valid {a b : Product}
    (ha : a.category ∈ categoryKeys) (hb : b.category ∈ categoryKeys) :
    ProductLe a b ↔
      ((categoryOrder a.category).getD 0 < (categoryOrder b.category).getD 0
       ∨ (a.category = b.category ∧ localeCompareDe a.name b.name ≤ 0)) := by
  rcases categoryOrder_cases ha with ⟨ea, _⟩ | ⟨ea, _⟩ | ⟨ea, _⟩ <;>
    rcases categoryOrder_cases hb with ⟨eb, _⟩ | ⟨eb, _⟩ | ⟨eb, _⟩ <;>
    rw [ProductLe, productCmp, ea, eb] <;>
    simp [categoryOrder]

theorem productLe_total (a b : Product) : ProductLe a b ∨ ProductLe b a := by
  unfold ProductLe productCmp
  by_cases hc : a.category = b.category
  · rw [hc]
    simp only [ne_eq, not_true_eq_false, if_false, ite_false]
    exact localeCompareDe_le_total a.name b.name
  · rw [if_pos hc, if_pos (Ne.symm hc)]
    cases ha : categoryOrder a.category <;> cases hb : categoryOrder b.category <;>
      [simp; simp; simp; (simp; omega)]

theorem productLe_trans_of_valid {a b c : Product}
    (ha : a.category ∈ categoryKeys) (hb : b.category ∈ categoryKeys)
    (hc : c.category ∈ categoryKeys)
    (hab : ProductLe a b) (hbc : ProductLe b c) : ProductLe a c := by
  rw [productLe_iff_of_valid ha hb] at hab
  rw [productLe_iff_of_valid hb hc] at hbc
  rw [productLe_iff_of_valid ha hc]
  rcases hab with h1 | ⟨e1, l1⟩ <;> rcases hbc with h2 | ⟨e2, l2⟩
  · exact Or.inl (lt_trans h1 h2)
  · refine Or.inl ?_
    rw [← e2]
    exact h1
  · refine Or.inl ?_
    rw [e1]
    exact h2
  · exact Or.inr ⟨e1.trans e2, localeCompareDe_le_trans l1 l2⟩

/-- Inserting a recognized-category product into a sorted list of
recognized-category products keeps it sorted. -/
theorem sorted_orderedInsert_valid (a : Product) :
    ∀ l : List Product, a.category ∈ categoryKeys →
      (∀ x ∈ l, x.category ∈ categoryKeys) →
      l.Sorted ProductLe → (l.orderedInsert ProductLe a).Sorted ProductLe := by
  intro l
  induction l with
  | nil =>
    intro _ _ _
    simp [List.orderedInsert]
  | cons b l ih =>
    intro ha hl hs
    rw [List.orderedInsert]
    by_cases hab : ProductLe a b
    · rw [if_pos hab, List.sorted_cons]
      refine ⟨?_, hs⟩
      intro y hy
      rcases List.mem_cons.mp hy with rfl | hy
      · exact hab
      · have hby : ProductLe b y := (List.sorted_cons.mp hs).1 y hy
        exact productLe_trans_of_valid ha (hl b (List.mem_cons_self b l))
          (hl y (List.mem_cons_of_mem b hy)) hab hby
    · rw [if_neg hab, List.sorted_cons]
      have hs2 := List.sorted_cons.mp hs
      refine ⟨?_, ih ha (fun x hx => hl x (List.mem_cons_of_mem b hx)) hs2.2⟩
      intro y hy
      rcases (List.mem_orderedInsert ProductLe).mp hy with rfl | hy
      · exact (productLe_total y b).resolve_left hab
      · exact hs2.1 y hy

/-- The stable sort of a collection of recognized-category products is
sorted by the comparator. -/
theorem sorted_insertionSort_of_valid :
    ∀ l : List Product, (∀ x ∈ l, x.category ∈ categoryKeys) →
      (List.insertionSort ProductLe l).Sorted ProductLe := by
  intro l
  induction l with
  | nil =>
    intro _
    simp [List.insertionSort]
  | cons a l ih =>
    intro hl
    rw [List.insertionSort]
    apply sorted_orderedInsert_valid
    · exact hl a (List.mem_cons_self a l)
    · intro x hx
      exact hl x (List.mem_cons_of_mem a ((List.mem_insertionSort ProductLe).mp hx))
    · exact ih (fun x hx => hl x (List.mem_cons_of_mem a hx))

/-- Claim C4: for a collection whose categories are all recognized, the
displayed sequence is a stable sort of the collection by the composite
key — it is a permutation of the collection (conjunct 1), sorted by the
comparator (conjunct 2), stable (any comparator-ordered pair of the
original, ties included, keeps its relative order, conjunct 3); the
comparator realizes primary key category rank `fruits = 1`,
`vegetables = 2`, `salads = 3` and secondary key German-collation order
on the name (conjunct 4); and within one category the names `Öl`,
`Apfel`, `Zucchini` sort to `Apfel`, `Öl`, `Zucchini` (conjunct 5). -/
theorem sortedProducts_is_stable_sort (products : List Product)
    (hv : ∀ p ∈ products, p.category ∈ categoryKeys) :
    List.Perm (sortedProducts products) products
    ∧ (sortedProducts products).Sorted ProductLe
    ∧ (∀ a b : Product, ProductLe a b → List.Sublist [a, b] products →
        List.Sublist [a, b] (sortedProducts products))
    ∧ (∀ a b : Product, a.category ∈ categoryKeys → b.category ∈ categoryKeys →
        (ProductLe a b ↔
          ((categoryOrder a.category).getD 0 < (categoryOrder b.category).getD 0
           ∨ (a.category = b.category ∧ localeCompareDe a.name b.name ≤ 0))))
    ∧ sortedProducts
        [⟨"o-l", "Öl", "vegetables", "kg", 1, 1⟩,
         ⟨"apfel", "Apfel", "vegetables", "kg", 1, 2⟩,
         ⟨"zucchini", "Zucchini", "vegetables", "kg", 1, 3⟩]
      = [⟨"apfel", "Apfel", "vegetables", "kg", 1, 2⟩,
         ⟨"o-l", "Öl", "vegetables", "kg", 1, 1⟩,
         ⟨"zucchini", "Zucchini", "vegetables", "kg", 1, 3⟩] := by
  refine ⟨List.perm_insertionSort ProductLe products,
    sorted_insertionSort_of_valid products hv, ?_, ?_, by decide⟩
  · intro a b hab hsub
    exact List.pair_sublist_insertionSort hab hsub
  · intro a b ha hb
    exact productLe_iff_of_valid ha hb

theorem sortedProducts_is_stable_sort_witness :
    List.Perm
      (sortedProducts
        [⟨"o-l", "Öl", "vegetables", "kg", 1, 1⟩,
         ⟨"apfel", "Apfel", "vegetables", "kg", 1, 2⟩,
         ⟨"zucchini", "Zucchini", "vegetables", "kg", 1, 3⟩])
      [⟨"o-l", "Öl", "vegetables", "kg", 1, 1⟩,
       ⟨"apfel", "Apfel", "vegetables", "kg", 1, 2⟩,
       ⟨"zucchini", "Zucchini", "vegetables", "kg", 1, 3⟩]
    ∧ (sortedProducts
        [⟨"o-l", "Öl", "vegetables", "kg", 1, 1⟩,
         ⟨"apfel", "Apfel", "vegetables", "kg", 1, 2⟩,
         ⟨"zucchini", "Zucchini", "vegetables", "kg", 1, 3⟩]).Sorted ProductLe :=
  ⟨(sortedProducts_is_stable_sort _ (by decide)).1,
   (sortedProducts_is_stable_sort _ (by decide)).2.1⟩

end RegioFrucht
